import Mathlib

/-
Verification of the HS-code chatbot utility module (utils_keyinput.py).

Shallow embedding conventions:
* A corpus record (a JSON object) is modelled by its textual serialization
  `str(item)`: the code keys records by `(source, str(item))` for scoring and
  re-parses the string with `eval` when returning results, so the serialized
  form is the identity the program actually uses.  `strItem` (Python `str`)
  and `pyEval` (Python `eval` of that serialization) are therefore the
  identity on this model.
* Python's `re` word characters `\w` are modelled as ASCII alphanumerics,
  underscore, and every non-ASCII character (Korean text is all word
  characters); `\s` and `\d` are modelled as ASCII whitespace and digits.
* Python `set` iteration order is unspecified; the model fixes the
  first-occurrence order.  All order-sensitive statements (stable sorting)
  are relative to this traversal order, exactly as in the source.
* Mutating dictionary state is threaded explicitly: `ddGet` models
  `dict.get(k, default)` (which never inserts) and returns the dictionary
  unchanged next to the value; `indexAppend` models
  `defaultdict(list)[k].append(p)`; `bump` models `defaultdict(int)[k] += 1`.
* File access is modelled by a `FileContent` value per path (missing file /
  unparsable content / parsed records); functions that call `open` take the
  file system and additionally return the list of paths they opened.
-/

/-! ## Character and string primitives -/

/-- Python regex `\w` (word character), with non-ASCII modelled as word. -/
def isWordChar (c : Char) : Bool :=
  c.isAlphanum || c == '_' || c.toNat ≥ 128

/-- Python regex `\s` / `str.split()` whitespace, ASCII model. -/
def isSpaceChar (c : Char) : Bool :=
  c == ' ' || c == '\t' || c == '\n' || c == '\r' || c == '\x0b' || c == '\x0c'

/-- Body of `re.sub(r'[^\w\s]', ' ', text)`: every character that is neither
a word character nor whitespace is replaced by a space. -/
def stripSpecial (cs : List Char) : List Char :=
  cs.map (fun c => if isWordChar c || isSpaceChar c then c else ' ')

/-- Helper for `str.split()`: accumulates the current word (reversed). -/
def splitWsGo : List Char → List Char → List (List Char)
  | [], cur => if cur = [] then [] else [cur.reverse]
  | c :: cs, cur =>
      if isSpaceChar c then
        (if cur = [] then splitWsGo cs [] else cur.reverse :: splitWsGo cs [])
      else splitWsGo cs (c :: cur)

/-- Python `str.split()` with no argument: split on whitespace runs,
producing no empty words. -/
def splitWs (cs : List Char) : List (List Char) :=
  splitWsGo cs []

/-- Helper for first-occurrence deduplication: `seen` records the elements
already emitted. -/
def dedupFirstGo [DecidableEq α] (seen : List α) : List α → List α
  | [] => []
  | x :: xs => if x ∈ seen then dedupFirstGo seen xs else x :: dedupFirstGo (x :: seen) xs

/-- Deduplication keeping the first occurrence of each element.  Models the
order in which Python's `set` is iterated (see header note). -/
def dedupFirst [DecidableEq α] (l : List α) : List α :=
  dedupFirstGo [] l

/-- Python slicing `s[:n]` on the code points of a string. -/
def pyTake (s : String) (n : Nat) : String :=
  String.mk (s.data.take n)

/-! ## Data model for the search manager -/

/-- A corpus partition name (key of `self.data`). -/
abbrev Source := String

/-- A corpus record, modelled by its textual serialization (see header). -/
abbrev Item := String

/-- Python `str(item)`: the identity on the serialization model. -/
def strItem (item : Item) : String := item

/-- Python `eval(item_str)`: re-parses the serialization; the identity on
the serialization model. -/
def pyEval (s : String) : Item := s

/-- The inverted index `self.search_index`: keyword to bucket of
`(source, item)` pairs, in insertion order. -/
abbrev Index := List (String × List (Source × Item))

/-- Score dictionary of `search`: `(source, str(item))` to hit count,
in insertion order. -/
abbrev ScoreList := List ((Source × String) × Nat)

/-- Association-list lookup (first matching key), modelling Python dict
key lookup. -/
def assocLookup [DecidableEq κ] : List (κ × α) → κ → Option α
  | [], _ => none
  | e :: rest, k => if e.1 = k then some e.2 else assocLookup rest k

/-- `self.search_index.get(keyword, [])`: returns the bucket (or `[]`) and
the dictionary, which `dict.get` never mutates. -/
def ddGet (idx : Index) (keyword : String) : List (Source × Item) × Index :=
  match assocLookup idx keyword with
  | some bucket => (bucket, idx)
  | none => ([], idx)

/-- `self.search_index[keyword].append(p)` on a `defaultdict(list)`:
append to the first entry with this key, or insert a fresh singleton
bucket at the end. -/
def indexAppend : Index → String → Source × Item → Index
  | [], keyword, p => [(keyword, [p])]
  | e :: rest, keyword, p =>
      if e.1 = keyword then (e.1, e.2 ++ [p]) :: rest
      else e :: indexAppend rest keyword p

/-- `results[key] += 1` on a `defaultdict(int)`: increment the first entry
with this key, or insert the key with count 1 at the end. -/
def bump : ScoreList → Source × String → ScoreList
  | [], key => [(key, 1)]
  | e :: rest, key =>
      if e.1 = key then (e.1, e.2 + 1) :: rest
      else e :: bump rest key

/-! ## HSDataManager keyword extraction, index build, and search -/

/-- `HSDataManager._extract_keywords`: strip non-word/non-space characters,
split on whitespace, keep words of length at least 2, deduplicate
(`list(set(...))`, modelled in first-occurrence order). -/
def _extract_keywords (text : String) : List String :=
  let words := splitWs (stripSpecial text.data)
  dedupFirst ((words.filter (fun w => w.length ≥ 2)).map String.mk)

/-- `HSDataManager.build_search_index`: for every item of every source,
append `(source, item)` to the bucket of each keyword of `str(item)`. -/
def build_search_index (data : List (Source × List Item)) : Index :=
  data.foldl (fun idx sp =>
    sp.2.foldl (fun idx item =>
      (_extract_keywords (strItem item)).foldl
        (fun idx keyword => indexAppend idx keyword (sp.1, item)) idx) idx) []

/-- The keyword loop of `HSDataManager.search`: for each query keyword,
look the bucket up with `.get` and bump the score of each
`(source, str(item))` pair found there.  The index is threaded through
to record that the lookups leave it unchanged. -/
def searchAccum : List String → ScoreList → Index → ScoreList × Index
  | [], results, idx => (results, idx)
  | keyword :: rest, results, idx =>
      let bi := ddGet idx keyword
      searchAccum rest
        (bi.1.foldl (fun acc si => bump acc (si.1, strItem si.2)) results) bi.2

/-- One step of Python's stable `sorted(..., key=score, reverse=True)`:
insert after every strictly greater score and before the first entry of
lower or equal score. -/
def insertDesc (x : (Source × String) × Nat) : ScoreList → ScoreList
  | [] => [x]
  | y :: ys => if y.2 ≤ x.2 then x :: y :: ys else y :: insertDesc x ys

/-- Python `sorted(results.items(), key=lambda x: x[1], reverse=True)`:
a stable descending sort by score (any stable sort agrees with Timsort). -/
def pySortedDesc (l : ScoreList) : ScoreList :=
  l.foldr insertDesc []

/-- One result dictionary `{'source': ..., 'item': eval(item_str)}`. -/
structure SearchHit where
  source : Source
  item : Item
deriving DecidableEq, Repr

/-- `HSDataManager.search`: extract query keywords, accumulate scores over
the index buckets, sort by descending score (stable), truncate to
`max_results`, and rebuild each item with `eval`. -/
def search (idx : Index) (query : String) (max_results : Nat) :
    List SearchHit × Index :=
  let query_keywords := _extract_keywords query
  let ri := searchAccum query_keywords [] idx
  let sorted_results := pySortedDesc ri.1
  (((sorted_results.take max_results).map
      (fun e => { source := e.1.1, item := pyEval e.1.2 })), ri.2)

/-- `json.dumps(item, ensure_ascii=False)`: on the serialization model the
record already is its textual form. -/
def jsonDumps (item : Item) : String := item

/-- `HSDataManager.get_relevant_context`: call `search` with the default
`max_results=5` and join the formatted hits with blank lines. -/
def get_relevant_context (idx : Index) (query : String) : String × Index :=
  let ri := search idx query 5
  let context := ri.1.map
    (fun r => "출처: " ++ r.source ++ "\n항목: " ++ jsonDumps r.item)
  (String.intercalate "\n\n" context, ri.2)

/-! ## Specification-side definitions for search (from the spec's words) -/

/-- Append an element to a list unless already present (shape of key
insertion into an insertion-ordered dictionary). -/
def appendNew [DecidableEq α] (ks : List α) (k : α) : List α :=
  if k ∈ ks then ks else ks ++ [k]

/-- The keys of a score dictionary, in insertion order. -/
def keysOf (acc : ScoreList) : List (Source × String) :=
  acc.map (fun e => e.1)

/-- The score recorded for a key (0 when absent). -/
def scoreOf (acc : ScoreList) (k : Source × String) : Nat :=
  (assocLookup acc k).getD 0

/-- Concatenation of the images of a list under a list-valued function. -/
def concatMapL (f : α → List β) : List α → List β
  | [] => []
  | x :: xs => f x ++ concatMapL f xs

/-- Number of occurrences of an element in a list. -/
def countKey [DecidableEq α] (a : α) : List α → Nat
  | [] => 0
  | x :: xs => (if x = a then 1 else 0) + countKey a xs

/-- The scoring keys a query traverses, mapped from the buckets of all its
keywords in order; spec-side definition. -/
def bucketKeys (idx : Index) (keyword : String) : List (Source × String) :=
  ((ddGet idx keyword).1).map (fun si => (si.1, strItem si.2))

/-- Spec: the matched `(source, record-identity)` keys in first-seen order
across all query keywords' buckets. -/
def firstSeenKeys (idx : Index) (query : String) : List (Source × String) :=
  dedupFirst (concatMapL (bucketKeys idx) (_extract_keywords query))

/-- Spec: a record's score is the number of occurrences of its key found
across all query keywords' index buckets. -/
def occCount (idx : Index) (query : String) (k : Source × String) : Nat :=
  ((_extract_keywords query).map (fun kw => countKey k (bucketKeys idx kw))).sum

/-- The untruncated, sorted candidate list of `search`. -/
def searchCandidates (idx : Index) (query : String) : ScoreList :=
  pySortedDesc (searchAccum (_extract_keywords query) [] idx).1

/-! ## HS code extraction (regex HS_PATTERN and extract_hs_codes)

The pattern is `\b(?:HS)?\s*\d{4}(?:[.-]\d{2}(?:[.-]\d{2}(?:[.-]\d{2})?)?)?\b`
with `re.IGNORECASE`.  The matcher below implements its exact leftmost,
greedy-with-backtracking semantics on the character list: the optional `HS`
prefix is tried first, `\s*` is effectively greedy (a shorter match would
place `\d` on a space), and the nested optional 2-digit groups are tried
from deepest to empty until the trailing word boundary holds. -/

/-- Word-ness of the head of the remaining text (false at end of string). -/
def nextIsWord : List Char → Bool
  | [] => false
  | c :: _ => isWordChar c

/-- Case-insensitive literal `HS`: the matched characters and the rest. -/
def takeHS : List Char → Option (List Char × List Char)
  | c1 :: c2 :: rest =>
      if (c1 == 'H' || c1 == 'h') && (c2 == 'S' || c2 == 's') then
        some ([c1, c2], rest)
      else none
  | _ => none

/-- Greedy `\s*`: the consumed whitespace and the rest. -/
def spanSpaces : List Char → List Char × List Char
  | [] => ([], [])
  | c :: cs =>
      if isSpaceChar c then
        let mr := spanSpaces cs
        (c :: mr.1, mr.2)
      else ([], c :: cs)

/-- `\d{n}`: exactly `n` ASCII digits. -/
def takeDigits : Nat → List Char → Option (List Char × List Char)
  | 0, cs => some ([], cs)
  | _ + 1, [] => none
  | n + 1, c :: cs =>
      if c.isDigit then (takeDigits n cs).map (fun mr => (c :: mr.1, mr.2))
      else none

/-- One group `[.-]\d{2}`. -/
def takeGroup : List Char → Option (List Char × List Char)
  | [] => none
  | c :: cs =>
      if c == '.' || c == '-' then
        (takeDigits 2 cs).map (fun mr => (c :: mr.1, mr.2))
      else none

/-- Backtracking candidates of the nested optional groups, at most `n`
consecutive `[.-]\d{2}` groups, listed from most groups to none (the order
the regex engine tries them in). -/
def groupCandidates : Nat → List Char → List (List Char × List Char)
  | 0, cs => [([], cs)]
  | n + 1, cs =>
      match takeGroup cs with
      | none => [([], cs)]
      | some mr =>
          ((groupCandidates n mr.2).map (fun mr2 => (mr.1 ++ mr2.1, mr2.2)))
            ++ [([], cs)]

/-- `\s*\d{4}(groups)?\b`: the part of the pattern after the optional `HS`.
The first candidate whose rest starts with a non-word character (or end of
string) satisfies the trailing word boundary, since the match ends in a
digit. -/
def matchCore (cs : List Char) : Option (List Char × List Char) :=
  let sp := spanSpaces cs
  match takeDigits 4 sp.2 with
  | none => none
  | some d4 =>
      match (groupCandidates 3 d4.2).find? (fun gr => !(nextIsWord gr.2)) with
      | some gr => some (sp.1 ++ d4.1 ++ gr.1, gr.2)
      | none => none

/-- A match attempt of the whole pattern at the current position, given the
preceding character (`none` at the start of the string).  The leading `\b`
requires the word-ness of the previous character and of the first matched
character to differ; the `HS` branch is tried before the empty branch. -/
def matchHere (prev : Option Char) (cs : List Char) :
    Option (List Char × List Char) :=
  let prevWord := match prev with | some c => isWordChar c | none => false
  if prevWord == nextIsWord cs then none
  else
    match takeHS cs with
    | some hs =>
        match matchCore hs.2 with
        | some mr => some (hs.1 ++ mr.1, mr.2)
        | none => matchCore cs
    | none => matchCore cs

/-- Scanning loop of `re.findall`: try a match at each position, emit it and
resume after its end, else advance one character.  The fuel starts at the
text length; every match consumes at least four characters, so the fuel
never runs out before the text does. -/
def findallGo : Nat → Option Char → List Char → List (List Char)
  | 0, _, _ => []
  | _ + 1, _, [] => []
  | fuel + 1, prev, c :: cs =>
      match matchHere prev (c :: cs) with
      | some mr => mr.1 :: findallGo fuel (some (mr.1.getLastD c)) mr.2
      | none => findallGo fuel (some c) cs

/-- `HS_PATTERN.findall(text)`: all non-overlapping matches, left to right. -/
def HS_PATTERN_findall (text : String) : List String :=
  (findallGo text.data.length none text.data).map String.mk

/-- `re.sub(r'\D', '', raw)`: keep only the digits. -/
def stripNonDigits (s : String) : String :=
  String.mk (s.data.filter Char.isDigit)

/-- The collection loop of `extract_hs_codes`: normalize each raw match and
append it unless empty or already collected. -/
def collectCodes : List String → List String → List String
  | [], hs_codes => hs_codes
  | raw :: rest, hs_codes =>
      let code := stripNonDigits raw
      collectCodes rest
        (if code ≠ "" ∧ code ∉ hs_codes then hs_codes ++ [code] else hs_codes)

/-- `extract_hs_codes`: find all pattern matches, strip non-digits, skip
empty results and exact duplicates, keeping first-seen order. -/
def extract_hs_codes (text : String) : List String :=
  collectCodes (HS_PATTERN_findall text) []

/-! ## File contents, explanation lookup, and preamble -/

/-- What a configured path holds: absent file (`FileNotFoundError` on
`open`), unparsable or ill-shaped content (any other exception during the
load), or a parsed sequence of records. -/
inductive FileContent (α : Type) where
  | missing : FileContent α
  | malformed : FileContent α
  | records : List α → FileContent α
deriving DecidableEq

/-- An explanation-reference entry: `code` models `item.get("code", "")`
(absent field read as `""`), `text` the `item['text']` field carried by
reference entries and placeholders alike. -/
structure Entry where
  code : String
  text : String
deriving DecidableEq, Repr

/-- A general-rules entry: `head1` and `text` model `item.get('head1', '')`
and `item.get('text', '')`. -/
structure GenEntry where
  head1 : String
  text : String
deriving DecidableEq, Repr

/-- Level placeholder `{"text": "해당 부에 대한 설명을 찾을 수 없습니다."}`. -/
def placeholder_bu : Entry := { code := "", text := "해당 부에 대한 설명을 찾을 수 없습니다." }

/-- Level placeholder `{"text": "해당 류에 대한 설명을 찾을 수 없습니다."}`. -/
def placeholder_ryu : Entry := { code := "", text := "해당 류에 대한 설명을 찾을 수 없습니다." }

/-- Level placeholder `{"text": "해당 호에 대한 설명을 찾을 수 없습니다."}`. -/
def placeholder_ho : Entry := { code := "", text := "해당 호에 대한 설명을 찾을 수 없습니다." }

/-- The triple `{"text": "오류가 발생했습니다."}` returned by `lookup_hscode`
when any exception occurs. -/
def errEntry : Entry := { code := "", text := "오류가 발생했습니다." }

/-- The body of `lookup_hscode` on the parsed reference document: for each
granularity, when the code is long enough, the first entry whose `code`
equals the prefix, else that level's placeholder. -/
def lookup_hscode (hs_code : String) (data : List Entry) :
    Entry × Entry × Entry :=
  let explanation :=
    if hs_code.length ≥ 2 then
      (data.find? (fun item => item.code == pyTake hs_code 2)).getD placeholder_bu
    else placeholder_bu
  let type_explanation :=
    if hs_code.length ≥ 4 then
      (data.find? (fun item => item.code == pyTake hs_code 4)).getD placeholder_ryu
    else placeholder_ryu
  let number_explanation :=
    if hs_code.length ≥ 6 then
      (data.find? (fun item => item.code == pyTake hs_code 6)).getD placeholder_ho
    else placeholder_ho
  (explanation, type_explanation, number_explanation)

/-- A file system for explanation-reference documents. -/
abbrev RefFS := String → FileContent Entry

/-- `lookup_hscode(hs_code, json_file)` as called: it opens `json_file`
(the returned path list records the open), and on any failure the blanket
`except` prints and yields the error triple. -/
def lookup_hscode_file (fs : RefFS) (hs_code : String) (json_file : String) :
    (Entry × Entry × Entry) × List String :=
  (match fs json_file with
   | FileContent.records data => lookup_hscode hs_code data
   | _ => (errEntry, errEntry, errEntry),
   [json_file])

/-- `extract_and_store_text(json_file)` on the file's content: the blanket
`except` turns a missing or unparsable file into `[]`; otherwise each entry
contributes `f"{head1}\n{text}"` unless both fields are empty
(`if head1 or text`). -/
def extract_and_store_text (file : FileContent GenEntry) : List String :=
  match file with
  | FileContent.records data =>
      data.foldl (fun extracted_data item =>
        if item.head1 ≠ "" ∨ item.text ≠ "" then
          extracted_data ++ [item.head1 ++ "\n" ++ item.text]
        else extracted_data) []
  | _ => []

/-- Python `repr` of one character inside a single-quoted string literal
(common escapes; quote-free printable characters, including all Korean
text, are kept as-is). -/
def pyEscapeChar (c : Char) : List Char :=
  if c = '\\' then ['\\', '\\']
  else if c = '\n' then ['\\', 'n']
  else if c = '\r' then ['\\', 'r']
  else if c = '\t' then ['\\', 't']
  else if c = '\'' then ['\\', '\'']
  else [c]

/-- Python `repr` of a string (single-quoted model). -/
def pyReprStr (s : String) : String :=
  "'" ++ String.mk (concatMapL pyEscapeChar s.data) ++ "'"

/-- Python `str` of a list of strings, as an f-string interpolates it:
`['...', '...']`. -/
def pyStrList (l : List String) : String :=
  "[" ++ String.intercalate ", " (l.map pyReprStr) ++ "]"

/-- The path `lookup_hscode` is called with on every code. -/
def grouped_file : String := "knowledge/grouped_11_end.json"

/-- `get_hs_explanations(hs_codes)`: for each code, look the three levels up
(opening the reference file each time — the second component collects the
opened paths) and append the block.  The guard
`if explanation and type_explanation and number_explanation` is always true
because the three dictionaries are never empty (found entries carry a
`code` key, placeholders and error values a `text` key).  The module-global
`general_explanation` list is passed explicitly; the f-string interpolates
the list itself, producing its `str` form. -/
def get_hs_explanations (general_explanation : List String) (fs : RefFS)
    (hs_codes : List String) : String × List String :=
  hs_codes.foldl (fun acc hs_code =>
    let ri := lookup_hscode_file fs hs_code grouped_file
    let explanation := ri.1.1
    let type_explanation := ri.1.2.1
    let number_explanation := ri.1.2.2
    (acc.1 ++ "\n\nHS 코드 " ++ hs_code ++ "에 대한 해설:\n"
          ++ "해설서 통칙:\n" ++ pyStrList general_explanation ++ "\n\n"
          ++ "부 해설:\n" ++ explanation.text ++ "\n\n"
          ++ "류 해설:\n" ++ type_explanation.text ++ "\n\n"
          ++ "호 해설:\n" ++ number_explanation.text ++ "\n",
     acc.2 ++ ri.2)) ("", [])

/-! ## Corpus loading (HSDataManager.load_all_data) -/

/-- A file system for corpus documents (records on the serialization
model). -/
abbrev CorpusFS := String → FileContent Item

/-- The configured corpus files as `(path, data key)` pairs:
`knowledge/HS분류사례_part1..10.json` keyed `HS분류사례_part{i}`, then the two
other files keyed by `file.replace('.json', '')`. -/
def corpusFiles : List (String × String) :=
  ((List.range 10).map (fun i =>
      ("knowledge/HS분류사례_part" ++ toString (i + 1) ++ ".json",
       "HS분류사례_part" ++ toString (i + 1))))
  ++ [("knowledge/HS위원회.json", "knowledge/HS위원회"),
      ("knowledge/HS협의회.json", "knowledge/HS협의회")]

/-- The loading loop: a missing file is skipped with a printed warning
(`except FileNotFoundError`); any other failure propagates, aborting the
load; a parsed file stores its records under the configured key. -/
def loadFiles (fs : CorpusFS) :
    List (String × String) → List (Source × List Item) →
    Except String (List (Source × List Item))
  | [], data => Except.ok data
  | pk :: rest, data =>
      match fs pk.1 with
      | FileContent.missing => loadFiles fs rest data
      | FileContent.malformed => Except.error pk.1
      | FileContent.records items => loadFiles fs rest (data ++ [(pk.2, items)])

/-- `HSDataManager.load_all_data` over the configured files. -/
def load_all_data (fs : CorpusFS) : Except String (List (Source × List Item)) :=
  loadFiles fs corpusFiles []

/-! ## Intent classification (classify_question) -/

/-- Python `str.strip()` (ASCII whitespace model). -/
def pyStrip (s : String) : String :=
  String.mk (((s.data.dropWhile isSpaceChar).reverse.dropWhile isSpaceChar).reverse)

/-- Python `str.lower()` (ASCII model; the three labels are ASCII). -/
def pyLower (s : String) : String :=
  String.mk (s.data.map Char.toLower)

/-- `classify_question`: the generative collaborator either raises (the
`except` prints and control falls through to the default) or returns text;
the text is stripped and lowercased, returned if it is one of the three
labels, and otherwise the fixed default `"hs_classification"` is returned. -/
def classify_question (llm_response : Except String String) : String :=
  match llm_response with
  | Except.error _ => "hs_classification"
  | Except.ok t =>
      let answer := pyLower (pyStrip t)
      if answer = "web_search" ∨ answer = "hs_classification" ∨ answer = "hs_manual" then
        answer
      else "hs_classification"

/-! ## Remaining specification-side definitions -/

/-- Spec: `r` is the first entry of `data` whose `code` field equals `c`
(document order). -/
def FirstEqCode (data : List Entry) (c : String) (r : Entry) : Prop :=
  ∃ pre post, data = pre ++ r :: post ∧ r.code = c ∧ ∀ y ∈ pre, y.code ≠ c

/-- The block `get_hs_explanations` appends for one code. -/
def explanationBlock (general_explanation : List String) (fs : RefFS)
    (hs_code : String) : String :=
  let ri := lookup_hscode_file fs hs_code grouped_file
  "\n\nHS 코드 " ++ hs_code ++ "에 대한 해설:\n"
    ++ "해설서 통칙:\n" ++ pyStrList general_explanation ++ "\n\n"
    ++ "부 해설:\n" ++ ri.1.1.text ++ "\n\n"
    ++ "류 해설:\n" ++ ri.1.2.1.text ++ "\n\n"
    ++ "호 해설:\n" ++ ri.1.2.2.text ++ "\n"

/-- Concatenation of the string images of a list's elements (the shape of
a string-accumulating loop). -/
def concatStr (f : α → String) : List α → String
  | [] => ""
  | x :: xs => f x ++ concatStr f xs

/-! ## Lemmas: first-occurrence deduplication -/

theorem dedupFirstGo_congr [DecidableEq α] :
    ∀ (l s₁ s₂ : List α), (∀ a, a ∈ s₁ ↔ a ∈ s₂) →
      dedupFirstGo s₁ l = dedupFirstGo s₂ l
  | [], _, _, _ => rfl
  | x :: xs, s₁, s₂, h => by
    by_cases hx : x ∈ s₁
    · rw [dedupFirstGo, dedupFirstGo, if_pos hx, if_pos ((h x).mp hx)]
      exact dedupFirstGo_congr xs s₁ s₂ h
    · rw [dedupFirstGo, dedupFirstGo, if_neg hx,
        if_neg (fun hx2 => hx ((h x).mpr hx2))]
      exact congrArg (x :: ·)
        (dedupFirstGo_congr xs (x :: s₁) (x :: s₂) (fun a => by simp [h a]))

theorem foldl_appendNew [DecidableEq α] :
    ∀ (l ks : List α), l.foldl appendNew ks = ks ++ dedupFirstGo ks l
  | [], ks => by simp [dedupFirstGo]
  | x :: xs, ks => by
    by_cases hx : x ∈ ks
    · rw [List.foldl_cons, appendNew, if_pos hx, dedupFirstGo, if_pos hx]
      exact foldl_appendNew xs ks
    · rw [List.foldl_cons, appendNew, if_neg hx, dedupFirstGo, if_neg hx,
        foldl_appendNew xs (ks ++ [x]),
        dedupFirstGo_congr xs (ks ++ [x]) (x :: ks) (fun a => by simp [or_comm])]
      simp

theorem mem_dedupFirstGo [DecidableEq α] :
    ∀ (l seen : List α) (a : α), a ∈ dedupFirstGo seen l ↔ a ∈ l ∧ a ∉ seen
  | [], seen, a => by simp [dedupFirstGo]
  | x :: xs, seen, a => by
    by_cases hx : x ∈ seen
    · rw [dedupFirstGo, if_pos hx, mem_dedupFirstGo xs seen a]
      constructor
      · exact fun h => ⟨List.mem_cons_of_mem x h.1, h.2⟩
      · rintro ⟨h1, h2⟩
        rcases List.mem_cons.mp h1 with h | h
        · exact absurd (h ▸ hx) h2
        · exact ⟨h, h2⟩
    · rw [dedupFirstGo, if_neg hx]
      constructor
      · intro h
        rcases List.mem_cons.mp h with h | h
        · exact ⟨h ▸ List.mem_cons_self x xs, h ▸ hx⟩
        · have h3 := (mem_dedupFirstGo xs (x :: seen) a).mp h
          exact ⟨List.mem_cons_of_mem x h3.1,
            fun ha => h3.2 (List.mem_cons_of_mem x ha)⟩
      · rintro ⟨h1, h2⟩
        by_cases hax : a = x
        · exact hax ▸ List.mem_cons_self x _
        · have hxs : a ∈ xs := by
            rcases List.mem_cons.mp h1 with h | h
            · exact absurd h hax
            · exact h
          exact List.mem_cons_of_mem x
            ((mem_dedupFirstGo xs (x :: seen) a).mpr
              ⟨hxs, by simp [List.mem_cons, hax, h2]⟩)

theorem mem_dedupFirst [DecidableEq α] (l : List α) (a : α) :
    a ∈ dedupFirst l ↔ a ∈ l := by
  rw [dedupFirst, mem_dedupFirstGo]
  simp

theorem dedupFirstGo_nodup [DecidableEq α] :
    ∀ (l seen : List α), (dedupFirstGo seen l).Nodup
  | [], _ => List.nodup_nil
  | x :: xs, seen => by
    by_cases hx : x ∈ seen
    · rw [dedupFirstGo, if_pos hx]
      exact dedupFirstGo_nodup xs seen
    · rw [dedupFirstGo, if_neg hx]
      refine List.nodup_cons.mpr ⟨?_, dedupFirstGo_nodup xs (x :: seen)⟩
      intro hmem
      exact ((mem_dedupFirstGo xs (x :: seen) x).mp hmem).2
        (List.mem_cons_self x seen)

theorem dedupFirst_nodup [DecidableEq α] (l : List α) : (dedupFirst l).Nodup :=
  dedupFirstGo_nodup l []

/-! ## Lemmas: score dictionary -/

theorem keysOf_bump : ∀ (acc : ScoreList) (k : Source × String),
    keysOf (bump acc k) = appendNew (keysOf acc) k
  | [], k => rfl
  | e :: rest, k => by
    by_cases h : e.1 = k
    · have hk : k ∈ keysOf (e :: rest) := by
        simp only [keysOf, List.map_cons]
        exact h ▸ List.mem_cons_self e.1 _
      rw [bump, if_pos h, appendNew, if_pos hk]
      rfl
    · rw [bump, if_neg h]
      show e.1 :: keysOf (bump rest k) = appendNew (e.1 :: keysOf rest) k
      rw [keysOf_bump rest k]
      by_cases hk : k ∈ keysOf rest
      · rw [appendNew, if_pos hk, appendNew, if_pos (List.mem_cons_of_mem _ hk)]
      · have hk2 : k ∉ (e.1 :: keysOf rest) := by
          intro hmem
          rcases List.mem_cons.mp hmem with h1 | h1
          · exact h h1.symm
          · exact hk h1
        rw [appendNew, if_neg hk, appendNew, if_neg hk2]
        simp

theorem scoreOf_nil (k : Source × String) : scoreOf [] k = 0 := rfl

theorem scoreOf_bump : ∀ (acc : ScoreList) (k k' : Source × String),
    scoreOf (bump acc k) k' = scoreOf acc k' + (if k' = k then 1 else 0)
  | [], k, k' => by
    by_cases h : k = k'
    · simp [bump, scoreOf, assocLookup, h]
    · have h' : ¬k' = k := fun h2 => h (Eq.symm h2)
      simp [bump, scoreOf, assocLookup, h, h']
  | e :: rest, k, k' => by
    by_cases h : e.1 = k
    · rw [bump, if_pos h]
      by_cases h2 : e.1 = k'
      · have : k' = k := h2 ▸ h
        simp [scoreOf, assocLookup, h2, this]
      · have : ¬(k' = k) := fun he => h2 (he ▸ h)
        simp [scoreOf, assocLookup, h2, this]
    · rw [bump, if_neg h]
      by_cases h2 : e.1 = k'
      · have : ¬(k' = k) := fun he => h (he ▸ h2)
        simp [scoreOf, assocLookup, h2, this]
      · simp only [scoreOf, assocLookup, if_neg h2]
        exact scoreOf_bump rest k k'

theorem keysOf_foldl_bump :
    ∀ (l : List (Source × Item)) (acc : ScoreList),
      keysOf (l.foldl (fun a si => bump a (si.1, strItem si.2)) acc)
        = (l.map (fun si => (si.1, strItem si.2))).foldl appendNew (keysOf acc)
  | [], _ => rfl
  | si :: rest, acc => by
    simp only [List.foldl_cons, List.map_cons]
    rw [keysOf_foldl_bump rest _, keysOf_bump]

theorem scoreOf_foldl_bump :
    ∀ (l : List (Source × Item)) (acc : ScoreList) (k : Source × String),
      scoreOf (l.foldl (fun a si => bump a (si.1, strItem si.2)) acc) k
        = scoreOf acc k + countKey k (l.map (fun si => (si.1, strItem si.2)))
  | [], _, k => by simp [countKey]
  | si :: rest, acc, k => by
    simp only [List.foldl_cons, List.map_cons, countKey]
    rw [scoreOf_foldl_bump rest _ k, scoreOf_bump]
    by_cases h : (si.1, strItem si.2) = k
    · simp [h]
      omega
    · have h' : ¬k = (si.1, strItem si.2) := fun h2 => h (Eq.symm h2)
      simp [h, h']

/-! ## Lemmas: the search accumulator -/

theorem ddGet_snd (idx : Index) (kw : String) : (ddGet idx kw).2 = idx := by
  cases h : assocLookup idx kw <;> simp [ddGet, h]

theorem searchAccum_snd : ∀ (kws : List String) (acc : ScoreList) (idx : Index),
    (searchAccum kws acc idx).2 = idx
  | [], _, _ => rfl
  | kw :: rest, acc, idx => by
    simp only [searchAccum]
    rw [searchAccum_snd rest _ _, ddGet_snd]

theorem searchAccum_fst : ∀ (kws : List String) (acc : ScoreList) (idx : Index),
    (searchAccum kws acc idx).1
      = kws.foldl (fun a kw =>
          ((ddGet idx kw).1).foldl (fun a' si => bump a' (si.1, strItem si.2)) a) acc
  | [], _, _ => rfl
  | kw :: rest, acc, idx => by
    simp only [searchAccum, List.foldl_cons]
    rw [ddGet_snd]
    exact searchAccum_fst rest _ idx

theorem keysOf_pureAccum :
    ∀ (kws : List String) (acc : ScoreList) (idx : Index),
      keysOf (kws.foldl (fun a kw =>
          ((ddGet idx kw).1).foldl (fun a' si => bump a' (si.1, strItem si.2)) a) acc)
        = (concatMapL (bucketKeys idx) kws).foldl appendNew (keysOf acc)
  | [], _, _ => rfl
  | kw :: rest, acc, idx => by
    simp only [List.foldl_cons, concatMapL]
    rw [List.foldl_append, keysOf_pureAccum rest _ idx, keysOf_foldl_bump]
    rfl

theorem scoreOf_pureAccum :
    ∀ (kws : List String) (acc : ScoreList) (idx : Index) (k : Source × String),
      scoreOf (kws.foldl (fun a kw =>
          ((ddGet idx kw).1).foldl (fun a' si => bump a' (si.1, strItem si.2)) a) acc) k
        = scoreOf acc k + (kws.map (fun kw => countKey k (bucketKeys idx kw))).sum
  | [], _, _, k => by simp
  | kw :: rest, acc, idx, k => by
    simp only [List.foldl_cons, List.map_cons, List.sum_cons]
    rw [scoreOf_pureAccum rest _ idx k, scoreOf_foldl_bump]
    show scoreOf acc k + countKey k (bucketKeys idx kw) + _ = _
    omega

theorem scoreList_eq_map_keys : ∀ (acc : ScoreList), (keysOf acc).Nodup →
    acc = (keysOf acc).map (fun k => (k, scoreOf acc k))
  | [], _ => rfl
  | e :: rest, h => by
    have h1 : e.1 ∉ keysOf rest := (List.nodup_cons.mp h).1
    have h2 := scoreList_eq_map_keys rest (List.nodup_cons.mp h).2
    show e :: rest
      = (e.1, scoreOf (e :: rest) e.1)
        :: (keysOf rest).map (fun k => (k, scoreOf (e :: rest) k))
    have hs : scoreOf (e :: rest) e.1 = e.2 := by simp [scoreOf, assocLookup]
    have hmap : (keysOf rest).map (fun k => (k, scoreOf (e :: rest) k))
        = (keysOf rest).map (fun k => (k, scoreOf rest k)) := by
      apply List.map_congr_left
      intro k hk
      have hne : ¬(e.1 = k) := fun he => h1 (he ▸ hk)
      simp [scoreOf, assocLookup, hne]
    rw [hs, hmap, ← h2]

theorem searchAccum_eq_spec (idx : Index) (query : String) :
    (searchAccum (_extract_keywords query) [] idx).1
      = (firstSeenKeys idx query).map (fun k => (k, occCount idx query k)) := by
  have hfst := searchAccum_fst (_extract_keywords query) [] idx
  have hkeys : keysOf (searchAccum (_extract_keywords query) [] idx).1
      = firstSeenKeys idx query := by
    rw [hfst, keysOf_pureAccum]
    show (concatMapL (bucketKeys idx) (_extract_keywords query)).foldl appendNew [] = _
    rw [foldl_appendNew]
    rfl
  have hscore : ∀ k, scoreOf (searchAccum (_extract_keywords query) [] idx).1 k
      = occCount idx query k := by
    intro k
    rw [hfst, scoreOf_pureAccum]
    simp [scoreOf, assocLookup, occCount]
  have hnodup : (keysOf (searchAccum (_extract_keywords query) [] idx).1).Nodup := by
    rw [hkeys]
    exact dedupFirst_nodup _
  have hfun : (fun k => ((k : Source × String), scoreOf (searchAccum (_extract_keywords query) [] idx).1 k))
      = (fun k => (k, occCount idx query k)) :=
    funext (fun k => by rw [hscore k])
  calc (searchAccum (_extract_keywords query) [] idx).1
      = (keysOf (searchAccum (_extract_keywords query) [] idx).1).map
          (fun k => (k, scoreOf (searchAccum (_extract_keywords query) [] idx).1 k)) :=
        scoreList_eq_map_keys _ hnodup
    _ = (firstSeenKeys idx query).map (fun k => (k, occCount idx query k)) := by
        rw [hkeys, hfun]

/-! ## Lemmas: the stable descending sort -/

theorem insertDesc_perm (x : (Source × String) × Nat) :
    ∀ l : ScoreList, (insertDesc x l).Perm (x :: l)
  | [] => List.Perm.refl _
  | y :: ys => by
    simp only [insertDesc]
    by_cases h : y.2 ≤ x.2
    · rw [if_pos h]
    · rw [if_neg h]
      exact ((insertDesc_perm x ys).cons y).trans (List.Perm.swap x y ys)

theorem pySortedDesc_perm : ∀ l : ScoreList, (pySortedDesc l).Perm l
  | [] => List.Perm.refl _
  | x :: xs => by
    simp only [pySortedDesc, List.foldr_cons]
    exact (insertDesc_perm x _).trans ((pySortedDesc_perm xs).cons x)

theorem insertDesc_pairwise (x : (Source × String) × Nat) :
    ∀ l : ScoreList, l.Pairwise (fun a b => b.2 ≤ a.2) →
      (insertDesc x l).Pairwise (fun a b => b.2 ≤ a.2)
  | [], _ => by simp [insertDesc]
  | y :: ys, h => by
    simp only [insertDesc]
    rcases List.pairwise_cons.mp h with ⟨hy, hys⟩
    by_cases hc : y.2 ≤ x.2
    · rw [if_pos hc]
      refine List.pairwise_cons.mpr ⟨?_, h⟩
      intro b hb
      rcases List.mem_cons.mp hb with rfl | hb2
      · exact hc
      · exact le_trans (hy b hb2) hc
    · rw [if_neg hc]
      refine List.pairwise_cons.mpr ⟨?_, insertDesc_pairwise x ys hys⟩
      intro b hb
      have hbm := (insertDesc_perm x ys).mem_iff.mp hb
      rcases List.mem_cons.mp hbm with rfl | hb2
      · exact le_of_not_le hc
      · exact hy b hb2

theorem pySortedDesc_pairwise : ∀ l : ScoreList,
    (pySortedDesc l).Pairwise (fun a b => b.2 ≤ a.2)
  | [] => List.Pairwise.nil
  | x :: xs => by
    simp only [pySortedDesc, List.foldr_cons]
    exact insertDesc_pairwise x _ (pySortedDesc_pairwise xs)

theorem insertDesc_filter (x : (Source × String) × Nat) (s : Nat) :
    ∀ l : ScoreList,
      (insertDesc x l).filter (fun p => p.2 == s)
        = if x.2 = s then x :: l.filter (fun p => p.2 == s)
          else l.filter (fun p => p.2 == s)
  | [] => by
    by_cases h : x.2 = s <;> simp [insertDesc, List.filter_cons, h]
  | y :: ys => by
    simp only [insertDesc]
    by_cases hc : y.2 ≤ x.2
    · rw [if_pos hc]
      by_cases h : x.2 = s <;> simp [List.filter_cons, h]
    · rw [if_neg hc]
      rw [List.filter_cons, List.filter_cons, insertDesc_filter x s ys]
      by_cases h : x.2 = s
      · have hy : ¬(y.2 = s) := by omega
        simp [h, hy]
      · simp [h]

theorem pySortedDesc_filter (s : Nat) : ∀ l : ScoreList,
    (pySortedDesc l).filter (fun p => p.2 == s) = l.filter (fun p => p.2 == s)
  | [] => rfl
  | x :: xs => by
    simp only [pySortedDesc, List.foldr_cons]
    rw [insertDesc_filter]
    have hx : List.foldr insertDesc [] xs = pySortedDesc xs := rfl
    by_cases h : x.2 = s
    · rw [if_pos h, hx, pySortedDesc_filter s xs, List.filter_cons]
      simp [h]
    · rw [if_neg h, hx, pySortedDesc_filter s xs, List.filter_cons]
      simp [h]

theorem take_all_of_length_le : ∀ (l : List α) (n : Nat), l.length ≤ n → l.take n = l
  | [], _, _ => by simp
  | _ :: _, 0, h => by simp at h
  | x :: xs, n + 1, h => by
    simp only [List.take_succ_cons]
    rw [take_all_of_length_le xs n (by simpa using h)]

/-! ## Lemmas: search as a function of the candidates -/

theorem search_fst (idx : Index) (query : String) (n : Nat) :
    (search idx query n).1
      = ((searchCandidates idx query).take n).map
          (fun e => { source := e.1.1, item := pyEval e.1.2 }) := rfl

theorem search_snd (idx : Index) (query : String) (n : Nat) :
    (search idx query n).2 = idx := by
  show (searchAccum (_extract_keywords query) [] idx).2 = idx
  exact searchAccum_snd _ _ _

/-! ## Lemmas: the built index contains every record under its keywords -/

theorem ddGet_fst (idx : Index) (kw : String) :
    (ddGet idx kw).1 = (assocLookup idx kw).getD [] := by
  cases h : assocLookup idx kw <;> simp [ddGet, h]

theorem assocBucket_indexAppend :
    ∀ (idx : Index) (kw : String) (p : Source × Item) (kw' : String),
      (assocLookup (indexAppend idx kw p) kw').getD []
        = (assocLookup idx kw').getD [] ++ (if kw' = kw then [p] else [])
  | [], kw, p, kw' => by
    by_cases h : kw' = kw
    · simp [indexAppend, assocLookup, h]
    · have h' : ¬(kw = kw') := fun he => h he.symm
      simp [indexAppend, assocLookup, h, h']
  | e :: rest, kw, p, kw' => by
    by_cases h : e.1 = kw
    · rw [indexAppend, if_pos h]
      by_cases h2 : e.1 = kw'
      · have hk : kw' = kw := by rw [← h2, h]
        simp [assocLookup, h2, hk]
      · have hk : ¬(kw' = kw) := fun he => h2 (by rw [h, ← he])
        simp [assocLookup, h2, hk]
    · rw [indexAppend, if_neg h]
      by_cases h2 : e.1 = kw'
      · have hk : ¬(kw' = kw) := fun he => h (by rw [h2, he])
        simp [assocLookup, h2, hk]
      · simp only [assocLookup, if_neg h2]
        exact assocBucket_indexAppend rest kw p kw'

theorem foldl_preserve {β : Type} (P : Index → Prop) (f : Index → β → Index)
    (hf : ∀ i b, P i → P (f i b)) :
    ∀ (l : List β) (i : Index), P i → P (l.foldl f i)
  | [], _, h => h
  | b :: bs, i, h => foldl_preserve P f hf bs (f i b) (hf i b h)

theorem mem_bucket_indexAppend (p' : Source × Item) (kw : String)
    (idx : Index) (kw2 : String) (q : Source × Item)
    (h : p' ∈ (assocLookup idx kw).getD []) :
    p' ∈ (assocLookup (indexAppend idx kw2 q) kw).getD [] := by
  rw [assocBucket_indexAppend]
  exact List.mem_append_left _ h

theorem pres_kwFold (p' : Source × Item) (kw : String) (q : Source × Item)
    (kws : List String) (idx : Index)
    (h : p' ∈ (assocLookup idx kw).getD []) :
    p' ∈ (assocLookup (kws.foldl (fun i k => indexAppend i k q) idx) kw).getD [] :=
  foldl_preserve (fun i => p' ∈ (assocLookup i kw).getD []) _
    (fun i b hp => mem_bucket_indexAppend p' kw i b q hp) kws idx h

theorem mem_bucket_kwFold (p : Source × Item) :
    ∀ (kws : List String) (idx : Index) (kw : String), kw ∈ kws →
      p ∈ (assocLookup (kws.foldl (fun i k => indexAppend i k p) idx) kw).getD []
  | [], _, _, h => absurd h (List.not_mem_nil _)
  | k0 :: rest, idx, kw, h => by
    rw [List.foldl_cons]
    rcases List.mem_cons.mp h with rfl | hmem
    · refine foldl_preserve (fun i => p ∈ (assocLookup i kw).getD []) _
        (fun i b hp => mem_bucket_indexAppend p kw i b p hp)
        rest (indexAppend idx kw p) ?_
      show p ∈ (assocLookup (indexAppend idx kw p) kw).getD []
      rw [assocBucket_indexAppend]
      simp
    · exact mem_bucket_kwFold p rest (indexAppend idx k0 p) kw hmem

theorem mem_bucket_itemFold (src : Source) (item : Item) (kw : String)
    (hkw : kw ∈ _extract_keywords (strItem item)) :
    ∀ (items : List Item) (idx : Index), item ∈ items →
      (src, item) ∈ (assocLookup (items.foldl (fun i it =>
          (_extract_keywords (strItem it)).foldl
            (fun i2 keyword => indexAppend i2 keyword (src, it)) i) idx) kw).getD []
  | [], _, h => absurd h (List.not_mem_nil _)
  | it0 :: rest, idx, h => by
    rw [List.foldl_cons]
    rcases List.mem_cons.mp h with rfl | hmem
    · refine foldl_preserve (fun i => (src, item) ∈ (assocLookup i kw).getD [])
        _ (fun i it hp => pres_kwFold _ _ _ _ i hp) rest _ ?_
      show (src, item) ∈ (assocLookup ((_extract_keywords (strItem item)).foldl
        (fun i3 keyword => indexAppend i3 keyword (src, item)) idx) kw).getD []
      exact mem_bucket_kwFold (src, item) (_extract_keywords (strItem item)) idx kw hkw
    · exact mem_bucket_itemFold src item kw hkw rest _ hmem

theorem mem_bucket_sourceFold (sp : Source × List Item) (item : Item) (kw : String)
    (hit : item ∈ sp.2) (hkw : kw ∈ _extract_keywords (strItem item)) :
    ∀ (l : List (Source × List Item)) (idx : Index), sp ∈ l →
      (sp.1, item) ∈ (assocLookup (l.foldl (fun i s2 =>
          s2.2.foldl (fun i2 it =>
            (_extract_keywords (strItem it)).foldl
              (fun i3 keyword => indexAppend i3 keyword (s2.1, it)) i2) i) idx) kw).getD []
  | [], _, h => absurd h (List.not_mem_nil _)
  | s0 :: rest, idx, h => by
    rw [List.foldl_cons]
    rcases List.mem_cons.mp h with rfl | hmem
    · refine foldl_preserve (fun i => (sp.1, item) ∈ (assocLookup i kw).getD [])
        _ (fun i s2 hp => foldl_preserve _ _
            (fun i2 it hp2 => pres_kwFold _ _ _ _ i2 hp2) s2.2 i hp)
        rest _ ?_
      exact mem_bucket_itemFold sp.1 item kw hkw sp.2 idx hit
    · exact mem_bucket_sourceFold sp item kw hit hkw rest _ hmem

theorem mem_bucket_build (data : List (Source × List Item))
    (sp : Source × List Item) (item : Item) (kw : String)
    (hsp : sp ∈ data) (hit : item ∈ sp.2)
    (hkw : kw ∈ _extract_keywords (strItem item)) :
    (sp.1, item) ∈ (assocLookup (build_search_index data) kw).getD [] :=
  mem_bucket_sourceFold sp item kw hit hkw data [] hsp

theorem mem_concatMapL {f : α → List β} {b : β} :
    ∀ {l : List α} {a : α}, a ∈ l → b ∈ f a → b ∈ concatMapL f l
  | a0 :: rest, a, h, hb => by
    rw [show concatMapL f (a0 :: rest) = f a0 ++ concatMapL f rest from rfl]
    rcases List.mem_cons.mp h with rfl | hmem
    · exact List.mem_append_left _ hb
    · exact List.mem_append_right _ (mem_concatMapL hmem hb)

theorem mem_firstSeenKeys_of_token (data : List (Source × List Item))
    (sp : Source × List Item) (item : Item) (t : String) (query : String)
    (hsp : sp ∈ data) (hit : item ∈ sp.2)
    (ht1 : t ∈ _extract_keywords (strItem item))
    (ht2 : t ∈ _extract_keywords query) :
    (sp.1, strItem item) ∈ firstSeenKeys (build_search_index data) query := by
  rw [firstSeenKeys, mem_dedupFirst]
  refine mem_concatMapL ht2 ?_
  rw [bucketKeys, ddGet_fst]
  exact List.mem_map_of_mem _ (mem_bucket_build data sp item t hsp hit ht1)

theorem search_mem_of_key_mem (idx : Index) (query : String) (n : Nat)
    (k : Source × String) (hk : k ∈ firstSeenKeys idx query)
    (hn : (firstSeenKeys idx query).length ≤ n) :
    ({ source := k.1, item := pyEval k.2 } : SearchHit) ∈ (search idx query n).1 := by
  rw [search_fst]
  have hcand : searchCandidates idx query
      = pySortedDesc ((firstSeenKeys idx query).map
          (fun k => (k, occCount idx query k))) := by
    rw [searchCandidates, searchAccum_eq_spec]
  have hperm := pySortedDesc_perm ((firstSeenKeys idx query).map
      (fun k => (k, occCount idx query k)))
  have hlen : (searchCandidates idx query).length
      = (firstSeenKeys idx query).length := by
    rw [hcand, hperm.length_eq, List.length_map]
  rw [take_all_of_length_le _ n (by omega)]
  have hmem : (k, occCount idx query k) ∈ searchCandidates idx query := by
    rw [hcand]
    exact hperm.mem_iff.mpr (List.mem_map_of_mem _ hk)
  exact List.mem_map_of_mem _ hmem

/-! ## Lemmas: strings as character lists -/

theorem strData_append : ∀ (s t : String), (s ++ t).data = s.data ++ t.data
  | ⟨_⟩, ⟨_⟩ => rfl

theorem strAppend_assoc : ∀ (a b c : String), a ++ b ++ c = a ++ (b ++ c)
  | ⟨a⟩, ⟨b⟩, ⟨c⟩ => congrArg String.mk (List.append_assoc a b c)

theorem strAppend_empty : ∀ (s : String), s ++ "" = s
  | ⟨l⟩ => congrArg String.mk (List.append_nil l)

theorem strEmpty_append : ∀ (s : String), "" ++ s = s
  | ⟨_⟩ => rfl

/-! ## Lemmas: first match in a reference document -/

theorem find?_some_first {α : Type} (p : α → Bool) :
    ∀ (l : List α) (r : α), l.find? p = some r →
      ∃ pre post, l = pre ++ r :: post ∧ p r = true ∧ ∀ y ∈ pre, p y = false
  | [], r, h => by simp [List.find?] at h
  | x :: xs, r, h => by
    by_cases hx : p x
    · rw [List.find?_cons_of_pos _ hx] at h
      injection h with h
      exact ⟨[], xs, by rw [h]; rfl, h ▸ hx, by simp⟩
    · rw [List.find?_cons_of_neg _ (by simpa using hx)] at h
      obtain ⟨pre, post, h1, h2, h3⟩ := find?_some_first p xs r h
      refine ⟨x :: pre, post, by rw [h1, List.cons_append], h2, ?_⟩
      intro y hy
      rcases List.mem_cons.mp hy with rfl | hy2
      · simpa using hx
      · exact h3 y hy2

/-! ## Lemmas: corpus loading -/

theorem loadFiles_ok (fs : CorpusFS) :
    ∀ (l : List (String × String)) (d : List (Source × List Item)),
      (∀ pk ∈ l, fs pk.1 ≠ FileContent.malformed) →
      loadFiles fs l d = Except.ok (d ++ l.filterMap (fun pk =>
        match fs pk.1 with
        | FileContent.records items => some (pk.2, items)
        | _ => none))
  | [], d, _ => by simp [loadFiles]
  | pk :: rest, d, h => by
    have hrest : ∀ pk2 ∈ rest, fs pk2.1 ≠ FileContent.malformed :=
      fun pk2 hm => h pk2 (List.mem_cons_of_mem _ hm)
    cases hfs : fs pk.1 with
    | missing =>
        simp only [loadFiles, hfs, List.filterMap_cons]
        exact loadFiles_ok fs rest d hrest
    | malformed => exact absurd hfs (h pk (List.mem_cons_self _ _))
    | records items =>
        simp only [loadFiles, hfs, List.filterMap_cons]
        rw [loadFiles_ok fs rest _ hrest]
        simp

theorem loadFiles_error (fs : CorpusFS) :
    ∀ (l : List (String × String)) (d : List (Source × List Item)),
      (∃ pk ∈ l, fs pk.1 = FileContent.malformed) →
      ∃ e, loadFiles fs l d = Except.error e
  | [], _, h => by simp at h
  | pk :: rest, d, h => by
    cases hfs : fs pk.1 with
    | malformed => exact ⟨pk.1, by simp only [loadFiles, hfs]⟩
    | missing =>
        obtain ⟨pk', hmem, hm⟩ := h
        have hr : pk' ∈ rest := by
          rcases List.mem_cons.mp hmem with rfl | hr2
          · rw [hfs] at hm
            exact absurd hm (by simp)
          · exact hr2
        obtain ⟨e, he⟩ := loadFiles_error fs rest d ⟨pk', hr, hm⟩
        exact ⟨e, by simp only [loadFiles, hfs]; exact he⟩
    | records items =>
        obtain ⟨pk', hmem, hm⟩ := h
        have hr : pk' ∈ rest := by
          rcases List.mem_cons.mp hmem with rfl | hr2
          · rw [hfs] at hm
            exact absurd hm (by simp)
          · exact hr2
        obtain ⟨e, he⟩ := loadFiles_error fs rest (d ++ [(pk.2, items)]) ⟨pk', hr, hm⟩
        exact ⟨e, by simp only [loadFiles, hfs]; exact he⟩

/-! ## Lemmas: code extraction -/

theorem collectCodes_eq :
    ∀ (l : List String) (acc : List String),
      collectCodes l acc
        = ((l.map stripNonDigits).filter (fun c => decide (c ≠ ""))).foldl appendNew acc
  | [], _ => rfl
  | raw :: rest, acc => by
    simp only [List.map_cons, List.filter_cons]
    by_cases h : stripNonDigits raw = ""
    · have hcond : ¬(stripNonDigits raw ≠ "" ∧ stripNonDigits raw ∉ acc) :=
        fun hc => hc.1 h
      have hdec : (decide (stripNonDigits raw ≠ "")) = false := by simp [h]
      simp only [collectCodes]
      rw [if_neg hcond, hdec, if_neg Bool.false_ne_true]
      exact collectCodes_eq rest acc
    · have hdec : (decide (stripNonDigits raw ≠ "")) = true := by simp [h]
      simp only [collectCodes]
      rw [hdec, if_pos rfl, List.foldl_cons]
      by_cases hmem : stripNonDigits raw ∈ acc
      · have hcond : ¬(stripNonDigits raw ≠ "" ∧ stripNonDigits raw ∉ acc) :=
          fun hc => hc.2 hmem
        rw [if_neg hcond, show appendNew acc (stripNonDigits raw) = acc from by
          rw [appendNew, if_pos hmem]]
        exact collectCodes_eq rest acc
      · rw [if_pos ⟨h, hmem⟩,
          show appendNew acc (stripNonDigits raw) = acc ++ [stripNonDigits raw] from by
            rw [appendNew, if_neg hmem]]
        exact collectCodes_eq rest (acc ++ [stripNonDigits raw])

theorem extract_hs_codes_eq (text : String) :
    extract_hs_codes text
      = dedupFirst (((HS_PATTERN_findall text).map stripNonDigits).filter
          (fun c => decide (c ≠ ""))) := by
  rw [extract_hs_codes, collectCodes_eq, foldl_appendNew]
  rfl

/-! ## Lemmas: explanation blocks and the read trace -/

theorem get_hs_foldl (g : List String) (fs : RefFS) :
    ∀ (codes : List String) (acc : String × List String),
      (codes.foldl (fun acc hs_code =>
        let ri := lookup_hscode_file fs hs_code grouped_file
        let explanation := ri.1.1
        let type_explanation := ri.1.2.1
        let number_explanation := ri.1.2.2
        (acc.1 ++ "\n\nHS 코드 " ++ hs_code ++ "에 대한 해설:\n"
              ++ "해설서 통칙:\n" ++ pyStrList g ++ "\n\n"
              ++ "부 해설:\n" ++ explanation.text ++ "\n\n"
              ++ "류 해설:\n" ++ type_explanation.text ++ "\n\n"
              ++ "호 해설:\n" ++ number_explanation.text ++ "\n",
         acc.2 ++ ri.2)) acc)
      = (acc.1 ++ concatStr (explanationBlock g fs) codes,
         acc.2 ++ codes.map (fun _ => grouped_file))
  | [], acc => by
    simp only [List.foldl_nil, concatStr, List.map_nil, List.append_nil,
      strAppend_empty]
  | c :: rest, acc => by
    rw [List.foldl_cons, get_hs_foldl g fs rest _]
    simp only [concatStr, List.map_cons, Prod.mk.injEq]
    constructor
    · simp only [explanationBlock, lookup_hscode_file, strAppend_assoc]
    · simp only [lookup_hscode_file, List.append_assoc, List.cons_append,
        List.nil_append]

theorem get_hs_explanations_eq (g : List String) (fs : RefFS)
    (codes : List String) :
    get_hs_explanations g fs codes
      = (concatStr (explanationBlock g fs) codes,
         codes.map (fun _ => grouped_file)) := by
  rw [get_hs_explanations, get_hs_foldl]
  rw [strEmpty_append]
  simp

theorem extract_records_eq :
    ∀ (doc : List GenEntry) (acc : List String),
      (doc.foldl (fun extracted_data item =>
        if item.head1 ≠ "" ∨ item.text ≠ "" then
          extracted_data ++ [item.head1 ++ "\n" ++ item.text]
        else extracted_data) acc)
      = acc ++ doc.filterMap (fun e =>
          if e.head1 = "" ∧ e.text = "" then none
          else some (e.head1 ++ "\n" ++ e.text))
  | [], acc => by simp
  | item :: rest, acc => by
    simp only [List.foldl_cons, List.filterMap_cons]
    by_cases h : item.head1 = "" ∧ item.text = ""
    · have hcond : ¬(item.head1 ≠ "" ∨ item.text ≠ "") := by
        push_neg
        exact h
      rw [if_neg hcond, if_pos h]
      exact extract_records_eq rest acc
    · have hcond : item.head1 ≠ "" ∨ item.text ≠ "" := by
        by_contra hc
        push_neg at hc
        exact h hc
      rw [if_pos hcond, if_neg h]
      rw [extract_records_eq rest _]
      simp

theorem extract_and_store_text_records (doc : List GenEntry) :
    extract_and_store_text (FileContent.records doc)
      = doc.filterMap (fun e =>
          if e.head1 = "" ∧ e.text = "" then none
          else some (e.head1 ++ "\n" ++ e.text)) := by
  rw [extract_and_store_text, extract_records_eq]
  simp

/-! ## Claim theorems -/

/-- c8: the search index is never mutated after it is built: `search` and
`get_relevant_context` return the index unchanged, and looking up a keyword
absent from the index yields the empty bucket without inserting a new entry
(`dict.get`, unlike `defaultdict` subscripting, never inserts). -/
theorem c8_search_leaves_index_unchanged
    (idx : Index) (query : String) (max_results : Nat) (kw : String) :
    (search idx query max_results).2 = idx ∧
    (get_relevant_context idx query).2 = idx ∧
    ((∀ e ∈ idx, e.1 ≠ kw) → ddGet idx kw = ([], idx)) := by
  refine ⟨search_snd idx query max_results, ?_, ?_⟩
  · show (search idx query 5).2 = idx
    exact search_snd idx query 5
  · intro h
    have hnone : assocLookup idx kw = none := by
      induction idx with
      | nil => rfl
      | cons e rest ih =>
          rw [assocLookup, if_neg (h e (List.mem_cons_self _ _))]
          exact ih (fun e2 he2 => h e2 (List.mem_cons_of_mem _ he2))
    simp only [ddGet, hnone]

/-- Witness for c8 at a concrete index, query, and absent keyword. -/
theorem c8_witness :
    ddGet [("kw1", [("s", "i")])] "absent" = ([], [("kw1", [("s", "i")])]) :=
  (c8_search_leaves_index_unchanged [("kw1", [("s", "i")])] "hello" 5 "absent").2.2
    (by decide)

/-- Helper for c2: what one granularity of the lookup satisfies. -/
theorem lookup_level_spec (data : List Entry) (c : String) (dflt : Entry) :
    ((∃ x ∈ data, x.code = c) →
       FirstEqCode data c ((data.find? (fun item => item.code == c)).getD dflt)) ∧
    ((∀ x ∈ data, x.code ≠ c) →
       (data.find? (fun item => item.code == c)).getD dflt = dflt) := by
  constructor
  · rintro ⟨x, hx, hc⟩
    cases hfind : data.find? (fun item => item.code == c) with
    | none =>
        have := List.find?_eq_none.mp hfind x hx
        simp [hc] at this
    | some r =>
        obtain ⟨pre, post, h1, h2, h3⟩ := find?_some_first _ data r hfind
        exact ⟨pre, post, h1, by simpa using h2,
          fun y hy => by simpa using h3 y hy⟩
  · intro h
    have hnone : data.find? (fun item => item.code == c) = none :=
      List.find?_eq_none.mpr (fun x hx => by simpa using h x hx)
    rw [hnone]
    rfl

/-- c2: `lookup_hscode` resolves the three levels independently: for each
level length `L ∈ {2, 4, 6}`, when the code is at least `L` long and some
reference entry's `code` equals `code[:L]`, that level's result is the
first such entry in document order; otherwise it is that level's own
placeholder.  In particular, a length-6 code with no entry matching
`code[:2]` yields the section placeholder regardless of the other levels. -/
theorem c2_lookup_levels_independent (hs_code : String) (data : List Entry) :
    ((hs_code.length ≥ 2 → (∃ x ∈ data, x.code = pyTake hs_code 2) →
        FirstEqCode data (pyTake hs_code 2) (lookup_hscode hs_code data).1) ∧
     (hs_code.length < 2 ∨ (∀ x ∈ data, x.code ≠ pyTake hs_code 2) →
        (lookup_hscode hs_code data).1 = placeholder_bu)) ∧
    ((hs_code.length ≥ 4 → (∃ x ∈ data, x.code = pyTake hs_code 4) →
        FirstEqCode data (pyTake hs_code 4) (lookup_hscode hs_code data).2.1) ∧
     (hs_code.length < 4 ∨ (∀ x ∈ data, x.code ≠ pyTake hs_code 4) →
        (lookup_hscode hs_code data).2.1 = placeholder_ryu)) ∧
    ((hs_code.length ≥ 6 → (∃ x ∈ data, x.code = pyTake hs_code 6) →
        FirstEqCode data (pyTake hs_code 6) (lookup_hscode hs_code data).2.2) ∧
     (hs_code.length < 6 ∨ (∀ x ∈ data, x.code ≠ pyTake hs_code 6) →
        (lookup_hscode hs_code data).2.2 = placeholder_ho)) ∧
    (hs_code.length = 6 → (∀ x ∈ data, x.code ≠ pyTake hs_code 2) →
        (lookup_hscode hs_code data).1 = placeholder_bu) := by
  have e1 : (lookup_hscode hs_code data).1
      = if hs_code.length ≥ 2 then
          (data.find? (fun item => item.code == pyTake hs_code 2)).getD placeholder_bu
        else placeholder_bu := rfl
  have e2 : (lookup_hscode hs_code data).2.1
      = if hs_code.length ≥ 4 then
          (data.find? (fun item => item.code == pyTake hs_code 4)).getD placeholder_ryu
        else placeholder_ryu := rfl
  have e3 : (lookup_hscode hs_code data).2.2
      = if hs_code.length ≥ 6 then
          (data.find? (fun item => item.code == pyTake hs_code 6)).getD placeholder_ho
        else placeholder_ho := rfl
  have neg2 : hs_code.length < 2 ∨ (∀ x ∈ data, x.code ≠ pyTake hs_code 2) →
      (lookup_hscode hs_code data).1 = placeholder_bu := by
    rintro (hl | hall)
    · rw [e1, if_neg (by omega)]
    · by_cases hl : hs_code.length ≥ 2
      · rw [e1, if_pos hl]
        exact (lookup_level_spec data _ placeholder_bu).2 hall
      · rw [e1, if_neg hl]
  refine ⟨⟨?_, neg2⟩, ⟨?_, ?_⟩, ⟨?_, ?_⟩, ?_⟩
  · intro hl hex
    rw [e1, if_pos hl]
    exact (lookup_level_spec data _ placeholder_bu).1 hex
  · intro hl hex
    rw [e2, if_pos hl]
    exact (lookup_level_spec data _ placeholder_ryu).1 hex
  · rintro (hl | hall)
    · rw [e2, if_neg (by omega)]
    · by_cases hl : hs_code.length ≥ 4
      · rw [e2, if_pos hl]
        exact (lookup_level_spec data _ placeholder_ryu).2 hall
      · rw [e2, if_neg hl]
  · intro hl hex
    rw [e3, if_pos hl]
    exact (lookup_level_spec data _ placeholder_ho).1 hex
  · rintro (hl | hall)
    · rw [e3, if_neg (by omega)]
    · by_cases hl : hs_code.length ≥ 6
      · rw [e3, if_pos hl]
        exact (lookup_level_spec data _ placeholder_ho).2 hall
      · rw [e3, if_neg hl]
  · intro _ hall
    exact neg2 (Or.inr hall)

/-- Witness for c2: on a one-entry reference document, the section level of
`"851762"` resolves to the matching entry while the heading level falls
back to its own placeholder. -/
theorem c2_witness :
    FirstEqCode [⟨"85", "chapter"⟩] (pyTake "851762" 2)
      (lookup_hscode "851762" [⟨"85", "chapter"⟩]).1 ∧
    (lookup_hscode "851762" [⟨"85", "chapter"⟩]).2.1 = placeholder_ryu :=
  ⟨(c2_lookup_levels_independent "851762" [⟨"85", "chapter"⟩]).1.1 (by decide)
      ⟨⟨"85", "chapter"⟩, by decide, by decide⟩,
   (c2_lookup_levels_independent "851762" [⟨"85", "chapter"⟩]).2.1.2
      (Or.inr (by decide))⟩

/-- c9 counterexample: the raw response `"WEB_SEARCH"` is outside the label
set `{web_search, hs_classification, hs_manual}`, yet `classify_question`
returns `"web_search"` instead of the fallback `"hs_classification"`: the
membership check happens only after `.strip().lower()` normalization. -/
theorem c9_counterexample :
    ("WEB_SEARCH" ≠ "web_search" ∧ "WEB_SEARCH" ≠ "hs_classification" ∧
     "WEB_SEARCH" ≠ "hs_manual") ∧
    classify_question (Except.ok "WEB_SEARCH") = "web_search" ∧
    classify_question (Except.ok "WEB_SEARCH") ≠ "hs_classification" := by
  refine ⟨by decide, by decide, by decide⟩

/-- c9 (amended): `classify_question` always returns one of the three fixed
labels; it returns the fallback `"hs_classification"` whenever the
collaborator raises an error, and whenever the response is outside the
label set after stripping surrounding whitespace and lowercasing. -/
theorem c9_amended_classify_fallback (llm_response : Except String String) :
    (classify_question llm_response = "web_search" ∨
     classify_question llm_response = "hs_classification" ∨
     classify_question llm_response = "hs_manual") ∧
    (∀ e, llm_response = Except.error e →
       classify_question llm_response = "hs_classification") ∧
    (∀ t, llm_response = Except.ok t →
       pyLower (pyStrip t) ≠ "web_search" →
       pyLower (pyStrip t) ≠ "hs_classification" →
       pyLower (pyStrip t) ≠ "hs_manual" →
       classify_question llm_response = "hs_classification") := by
  cases llm_response with
  | error e =>
      exact ⟨Or.inr (Or.inl rfl), fun _ _ => rfl,
        fun t ht => Except.noConfusion ht⟩
  | ok t =>
      refine ⟨?_, ?_, ?_⟩
      · simp only [classify_question]
        split
        · rename_i hcond
          exact hcond
        · exact Or.inr (Or.inl rfl)
      · intro e he
        exact Except.noConfusion he
      · intro t' ht h1 h2 h3
        injection ht with ht
        subst ht
        simp only [classify_question]
        rw [if_neg (by tauto)]

/-- Witness for c9 (amended): an error from the collaborator yields the
fallback label. -/
theorem c9_witness :
    classify_question (Except.error "quota") = "hs_classification" :=
  (c9_amended_classify_fallback (Except.error "quota")).2.1 "quota" rfl

/-- c10: the module-scope preamble load swallows every failure:
`extract_and_store_text` yields `[]` for a missing or for an unparsable
document (so importing the module succeeds with a silently empty preamble),
and otherwise keeps `head1 ++ "\n" ++ text` for exactly the entries where
`head1` or `text` is nonempty — unlike corpus loading, where unparsable
content is a load-time error. -/
theorem c10_preamble_load_swallows_errors :
    extract_and_store_text (FileContent.missing) = [] ∧
    extract_and_store_text (FileContent.malformed) = [] ∧
    (∀ doc : List GenEntry,
       extract_and_store_text (FileContent.records doc)
         = doc.filterMap (fun e =>
             if e.head1 = "" ∧ e.text = "" then none
             else some (e.head1 ++ "\n" ++ e.text))) ∧
    (∃ e, load_all_data (fun _ => FileContent.malformed) = Except.error e) :=
  ⟨rfl, rfl, extract_and_store_text_records,
   ⟨"knowledge/HS분류사례_part1.json", rfl⟩⟩

/-- c5: corpus loading never raises on a missing file — that source is
simply absent from the loaded data (its key never appears) while every
parsed file's records are stored under its key — whereas a file whose
content fails to parse aborts the load with an error, a failure
distinguishable from the missing-file case. -/
theorem c5_load_tolerates_missing_surfaces_malformed (fs : CorpusFS) :
    ((∀ pk ∈ corpusFiles, fs pk.1 ≠ FileContent.malformed) →
       ∃ d, load_all_data fs = Except.ok d ∧
         ∀ pk ∈ corpusFiles,
           (fs pk.1 = FileContent.missing → pk.2 ∉ d.map Prod.fst) ∧
           (∀ items, fs pk.1 = FileContent.records items → (pk.2, items) ∈ d)) ∧
    ((∃ pk ∈ corpusFiles, fs pk.1 = FileContent.malformed) →
       ∃ e, load_all_data fs = Except.error e) := by
  constructor
  · intro h
    refine ⟨_, loadFiles_ok fs corpusFiles [] h, ?_⟩
    intro pk hpk
    constructor
    · intro hmiss hmem
      rw [List.nil_append] at hmem
      obtain ⟨b, hb, hfst⟩ := List.mem_map.mp hmem
      obtain ⟨pk', hpk', hf⟩ := List.mem_filterMap.mp hb
      cases hfs : fs pk'.1 with
      | missing => rw [hfs] at hf; cases hf
      | malformed => rw [hfs] at hf; cases hf
      | records items =>
          rw [hfs] at hf
          injection hf with hf
          have hkey : pk'.2 = pk.2 := by rw [← hfst, ← hf]
          have hnodup : (corpusFiles.map Prod.snd).Nodup := by decide
          have : pk' = pk :=
            List.inj_on_of_nodup_map hnodup hpk' hpk hkey
          rw [this] at hfs
          rw [hfs] at hmiss
          cases hmiss
    · intro items hrec
      rw [List.nil_append]
      exact List.mem_filterMap.mpr ⟨pk, hpk, by rw [hrec]⟩
  · exact loadFiles_error fs corpusFiles []

/-- Witness for c5: with the committee file absent and every other file
parsed, the load succeeds, the committee key is absent, and the council
records are present under their key. -/
theorem c5_witness :
    ∃ d, load_all_data (fun p =>
        if p = "knowledge/HS위원회.json" then FileContent.missing
        else FileContent.records ["rec"]) = Except.ok d ∧
      ("knowledge/HS위원회" ∉ d.map Prod.fst ∧
       ("knowledge/HS협의회", ["rec"]) ∈ d) := by
  obtain ⟨d, hd, hall⟩ :=
    (c5_load_tolerates_missing_surfaces_malformed (fun p =>
        if p = "knowledge/HS위원회.json" then FileContent.missing
        else FileContent.records ["rec"])).1 (by decide)
  refine ⟨d, hd, ?_, ?_⟩
  · exact (hall ("knowledge/HS위원회.json", "knowledge/HS위원회") (by decide)).1
      (by decide)
  · exact (hall ("knowledge/HS협의회.json", "knowledge/HS협의회") (by decide)).2
      ["rec"] (by decide)

/-- c6: `extract_hs_codes` returns the normalized pattern matches in order
of first occurrence, skipping empty normalizations and exact duplicates of
already-collected codes; every returned code is nonempty and purely
numeric; and `extract_hs_codes "HS 8517.62, also 8517" = ["851762", "8517"]`. -/
theorem c6_extract_codes_spec (text : String) :
    extract_hs_codes text
      = dedupFirst (((HS_PATTERN_findall text).map stripNonDigits).filter
          (fun c => decide (c ≠ ""))) ∧
    (∀ c ∈ extract_hs_codes text, c ≠ "" ∧ c.data.all Char.isDigit) ∧
    (extract_hs_codes text).Nodup ∧
    extract_hs_codes "HS 8517.62, also 8517" = ["851762", "8517"] := by
  refine ⟨extract_hs_codes_eq text, ?_, ?_, by decide⟩
  · intro c hc
    rw [extract_hs_codes_eq, mem_dedupFirst] at hc
    obtain ⟨hmap, hne⟩ := List.mem_filter.mp hc
    refine ⟨by simpa using hne, ?_⟩
    obtain ⟨raw, _, hraw⟩ := List.mem_map.mp hmap
    rw [← hraw]
    exact List.all_eq_true.mpr (fun x hx => (List.mem_filter.mp hx).2)
  · rw [extract_hs_codes_eq]
    exact dedupFirst_nodup _

/-- Witness for c6: the first extracted code of the example is nonempty and
purely numeric. -/
theorem c6_witness :
    "851762" ≠ "" ∧ "851762".data.all Char.isDigit :=
  (c6_extract_codes_spec "HS 8517.62, also 8517").2.1 "851762" (by decide)

/-- c3 counterexample: `get_hs_explanations` performs file input on the
query path — called with one code it opens the explanation reference
document (its read trace is nonempty), so the claim that none of the
query-path operations reads a file is false. -/
theorem c3_counterexample :
    (get_hs_explanations [] (fun _ => FileContent.missing) ["8517"]).2
      = ["knowledge/grouped_11_end.json"] ∧
    (get_hs_explanations [] (fun _ => FileContent.missing) ["8517"]).2 ≠ [] :=
  ⟨by decide, by decide⟩

/-- c3 (amended): `search`, `get_relevant_context`, and `extract_hs_codes`
read no files — they are pure functions of in-memory state, and their
embeddings take no file system — but `get_hs_explanations` opens the
explanation reference document once per code on every call: its read trace
is exactly one `grouped_11_end.json` open per code, so reference-document
input happens on the query path rather than once at initialization. -/
theorem c3_amended_query_path_reads (general_explanation : List String)
    (fs : RefFS) (hs_codes : List String) :
    (get_hs_explanations general_explanation fs hs_codes).2
      = hs_codes.map (fun _ => grouped_file) := by
  rw [get_hs_explanations_eq]

/-- Helper for c7: a member's string image is an infix of the whole
concatenation. -/
theorem mem_concatStr_sub {α : Type} {f : α → String} :
    ∀ {codes : List α} {c : α}, c ∈ codes →
      (f c).data <:+: (concatStr f codes).data
  | c0 :: rest, c, hmem => by
    rw [show concatStr f (c0 :: rest) = f c0 ++ concatStr f rest from rfl,
      strData_append]
    rcases List.mem_cons.mp hmem with rfl | hr
    · exact (List.prefix_append _ _).isInfix
    · exact (mem_concatStr_sub hr).trans (List.suffix_append _ _).isInfix

/-- c7 (amended): each per-code block of `get_hs_explanations` contains,
after the code header line, the label `해설서 통칙:` followed by the Python
string form of the general-rules entry list — each element
`head1 ++ "\n" ++ text`, an entry skipped exactly when both fields are
empty — rather than a newline-joined concatenation of the entries, and the
block begins with the header line rather than with the preamble itself. -/
theorem c7_amended_block_preamble (genDoc : List GenEntry) (fs : RefFS)
    (hs_codes : List String) (hs_code : String) (hmem : hs_code ∈ hs_codes) :
    ("\n\nHS 코드 " ++ hs_code ++ "에 대한 해설:\n" ++ "해설서 통칙:\n"
        ++ pyStrList (genDoc.filterMap (fun e =>
             if e.head1 = "" ∧ e.text = "" then none
             else some (e.head1 ++ "\n" ++ e.text))) ++ "\n\n"
        ++ "부 해설:\n").data
      <:+: (get_hs_explanations
              (extract_and_store_text (FileContent.records genDoc))
              fs hs_codes).1.data := by
  rw [get_hs_explanations_eq, extract_and_store_text_records]
  have h2 := @mem_concatStr_sub String
    (explanationBlock (genDoc.filterMap (fun e =>
      if e.head1 = "" ∧ e.text = "" then none
      else some (e.head1 ++ "\n" ++ e.text))) fs) hs_codes hs_code hmem
  refine List.IsInfix.trans ?_ h2
  have hsplit : explanationBlock
      (genDoc.filterMap (fun e =>
        if e.head1 = "" ∧ e.text = "" then none
        else some (e.head1 ++ "\n" ++ e.text))) fs hs_code
    = ("\n\nHS 코드 " ++ hs_code ++ "에 대한 해설:\n" ++ "해설서 통칙:\n"
        ++ pyStrList (genDoc.filterMap (fun e =>
             if e.head1 = "" ∧ e.text = "" then none
             else some (e.head1 ++ "\n" ++ e.text))) ++ "\n\n"
        ++ "부 해설:\n")
      ++ ((lookup_hscode_file fs hs_code grouped_file).1.1.text ++ "\n\n"
        ++ "류 해설:\n" ++ (lookup_hscode_file fs hs_code grouped_file).1.2.1.text
        ++ "\n\n" ++ "호 해설:\n"
        ++ (lookup_hscode_file fs hs_code grouped_file).1.2.2.text ++ "\n") := by
    simp only [explanationBlock, strAppend_assoc]
  rw [hsplit, strData_append]
  exact (List.prefix_append _ _).isInfix

/-- Witness for c7 (amended) on a concrete document and code list. -/
theorem c7_witness :
    ("\n\nHS 코드 " ++ "8517" ++ "에 대한 해설:\n" ++ "해설서 통칙:\n"
        ++ pyStrList (([⟨"GEN", "RULE"⟩] : List GenEntry).filterMap (fun e =>
             if e.head1 = "" ∧ e.text = "" then none
             else some (e.head1 ++ "\n" ++ e.text))) ++ "\n\n"
        ++ "부 해설:\n").data
      <:+: (get_hs_explanations
              (extract_and_store_text (FileContent.records [⟨"GEN", "RULE"⟩]))
              (fun _ => FileContent.missing) ["8517"]).1.data :=
  c7_amended_block_preamble [⟨"GEN", "RULE"⟩] (fun _ => FileContent.missing)
    ["8517"] "8517" (by decide)

set_option maxRecDepth 16000 in
/-- c7 counterexample: with the single general-rules entry
`{head1 = "GEN", text = "RULE"}` the produced text contains neither the
newline-joined preamble `"GEN\nRULE"` nor the plain concatenation
`"GENRULE"` anywhere: the f-string interpolates the Python list, whose
`str` form escapes the newline (`['GEN\nRULE']` spelled with a literal
backslash), so the claimed preamble never appears. -/
theorem c7_counterexample :
    ¬("GEN\nRULE".data <:+:
        (get_hs_explanations
          (extract_and_store_text (FileContent.records [⟨"GEN", "RULE"⟩]))
          (fun _ => FileContent.missing) ["8517"]).1.data) ∧
    ¬("GENRULE".data <:+:
        (get_hs_explanations
          (extract_and_store_text (FileContent.records [⟨"GEN", "RULE"⟩]))
          (fun _ => FileContent.missing) ["8517"]).1.data) :=
  ⟨by decide, by decide⟩

/-- c1: `search` scores each matched `(source, record-identity)` key by its
number of occurrences across all query keywords' buckets, sorts candidates
by descending score with ties kept in first-seen order (for every score the
equal-score subsequence of the sorted candidates equals that of the
first-seen candidate list), truncates the sorted list to `max_results`
(so `max_results = 0` yields `[]`), and a `max_results` at least the number
of matched keys returns exactly all matches, not padded. -/
theorem c1_search_scores_sorts_truncates (idx : Index) (query : String)
    (max_results : Nat) :
    (searchCandidates idx query).Perm
      ((firstSeenKeys idx query).map (fun k => (k, occCount idx query k))) ∧
    (searchCandidates idx query).Pairwise (fun a b => b.2 ≤ a.2) ∧
    (∀ s : Nat, (searchCandidates idx query).filter (fun p => p.2 == s)
       = ((firstSeenKeys idx query).map
           (fun k => (k, occCount idx query k))).filter (fun p => p.2 == s)) ∧
    (search idx query max_results).1
      = ((searchCandidates idx query).take max_results).map
          (fun e => { source := e.1.1, item := pyEval e.1.2 }) ∧
    (search idx query 0).1 = [] ∧
    ((firstSeenKeys idx query).length ≤ max_results →
       (search idx query max_results).1.length
         = (firstSeenKeys idx query).length ∧
       ∀ k ∈ firstSeenKeys idx query,
         ({ source := k.1, item := pyEval k.2 } : SearchHit)
           ∈ (search idx query max_results).1) := by
  have hcand : searchCandidates idx query
      = pySortedDesc ((firstSeenKeys idx query).map
          (fun k => (k, occCount idx query k))) := by
    rw [searchCandidates, searchAccum_eq_spec]
  refine ⟨?_, ?_, ?_, search_fst idx query max_results, ?_, ?_⟩
  · rw [hcand]
    exact pySortedDesc_perm _
  · rw [hcand]
    exact pySortedDesc_pairwise _
  · intro s
    rw [hcand]
    exact pySortedDesc_filter s _
  · rw [search_fst]
    rfl
  · intro hn
    have hlen : (searchCandidates idx query).length
        = (firstSeenKeys idx query).length := by
      rw [hcand, (pySortedDesc_perm _).length_eq, List.length_map]
    constructor
    · rw [search_fst, List.length_map, take_all_of_length_le _ _ (by omega), hlen]
    · exact fun k hk => search_mem_of_key_mem idx query max_results k hk hn

/-- Witness for c1: on a one-record corpus, a large `max_results` returns
exactly all matches. -/
theorem c1_witness :
    (search (build_search_index [("src", ["phone 8517"])]) "phone" 5).1.length
      = (firstSeenKeys (build_search_index [("src", ["phone 8517"])])
          "phone").length :=
  ((c1_search_scores_sorts_truncates
      (build_search_index [("src", ["phone 8517"])]) "phone" 5).2.2.2.2.2
    (by decide)).1

/-- c4 counterexample: all six records share the length-2 token `"aa"` with
the query, but `search` truncates to its default `max_results` of 5, so the
sixth record does not appear in the results even though a keyword produced
by the shared extractor occurs verbatim in both its serialization and the
query. -/
theorem c4_counterexample :
    ("aa" ∈ _extract_keywords (strItem "aa k6") ∧
     "aa" ∈ _extract_keywords "aa") ∧
    (∀ h ∈ (search (build_search_index
        [("src", ["aa k1", "aa k2", "aa k3", "aa k4", "aa k5", "aa k6"])])
        "aa" 5).1,
      ¬(h.source = "src" ∧ h.item = "aa k6")) := by
  refine ⟨⟨by decide, by decide⟩, by decide⟩

/-- c4 (amended): index-time and query-time tokenization are the same
function — `_extract_keywords` is used on both sides — so whenever a token
of length ≥ 2 produced by the shared extractor occurs both in a corpus
record's textual serialization and in the query, that record is among the
matched candidates, and it appears in the results of `search` whenever
`max_results` is at least the number of matched candidate keys (the
original claim fails only because of the `max_results` truncation). -/
theorem c4_amended_shared_token_recall (data : List (Source × List Item))
    (sp : Source × List Item) (item : Item) (t : String) (query : String)
    (max_results : Nat)
    (hsp : sp ∈ data) (hit : item ∈ sp.2)
    (ht1 : t ∈ _extract_keywords (strItem item))
    (ht2 : t ∈ _extract_keywords query)
    (hn : (firstSeenKeys (build_search_index data) query).length ≤ max_results) :
    ({ source := sp.1, item := pyEval (strItem item) } : SearchHit)
      ∈ (search (build_search_index data) query max_results).1 :=
  search_mem_of_key_mem _ query max_results (sp.1, strItem item)
    (mem_firstSeenKeys_of_token data sp item t query hsp hit ht1 ht2) hn

/-- Witness for c4 (amended): the shared token `"phone"` makes the record
appear in the results. -/
theorem c4_witness :
    ({ source := "src", item := pyEval (strItem "phone 8517") } : SearchHit)
      ∈ (search (build_search_index [("src", ["phone 8517"])]) "phone" 5).1 :=
  c4_amended_shared_token_recall [("src", ["phone 8517"])]
    ("src", ["phone 8517"]) "phone 8517" "phone" "phone" 5
    (by decide) (by decide) (by decide) (by decide) (by decide)
